import Mathlib

/-
Verification of scripts/version_bumper.py.

The program is embedded shallowly over lists of characters:
  * a file content is a List Char, a line is a List Char;
  * the network call get_new_version is abstracted as a parameter
    latest : List Char -> Option (List Char) (none models a non-success
    HTTP response, some v models an info.version payload v);
  * the two module-level regular expressions RAW_VERSION_RE and
    EXPANDED_VER_RE are embedded as executable match functions that
    reproduce the greedy backtracking semantics of re.match on these
    patterns (the leftmost anchored match, with each greedy group taking
    the longest text compatible with the rest of the pattern);
  * Python str.splitlines, str.strip, str.lstrip, str.replace and
    "\n".join are embedded as the corresponding list functions below.
    Character classes follow the ASCII reading of \w, \d and \s.
-/

namespace VersionBumper

/-- Character class of the regex fragment [\^\~\>\=\<\!], which is also the
set of characters stripped by .lstrip in bump_version. -/
def isComparator (c : Char) : Bool :=
  c = '^' || c = '~' || c = '>' || c = '=' || c = '<' || c = '!'

/-- Character class of the regex fragment [\d\.\-\w] (ASCII reading). -/
def isTokenChar (c : Char) : Bool :=
  c.isDigit || c = '.' || c = '-' || c.isAlphanum || c = '_'

/-- Characters treated as whitespace by Python str.strip() and by the
regex class \s (ASCII and Latin-1 part). -/
def isPySpace (c : Char) : Bool :=
  c = ' ' || c = '\t' || c = '\n' || c = '\r' || c = '\x0b' || c = '\x0c' ||
  c = '\x1c' || c = '\x1d' || c = '\x1e' || c = '\x1f' || c = '\x85' || c = '\xa0'

/-- Line boundary characters of Python str.splitlines (besides the pair
CR LF which is handled separately). -/
def isLineBoundary (c : Char) : Bool :=
  c = '\n' || c = '\r' || c = '\x0b' || c = '\x0c' ||
  c = '\x1c' || c = '\x1d' || c = '\x1e' || c = '\x85' ||
  c = '\u2028' || c = '\u2029'

/-- Bracket characters stripped by line.strip of the two bracket
characters in get_dependencies. -/
def isBracketChar (c : Char) : Bool := c = '[' || c = ']'

/-- Python str.strip(): remove leading and trailing whitespace. -/
def pyStrip (s : List Char) : List Char :=
  ((s.dropWhile isPySpace).reverse.dropWhile isPySpace).reverse

/-- Python line.strip of the two bracket characters: remove leading and
trailing brackets of either kind. -/
def pyStripBrackets (s : List Char) : List Char :=
  ((s.dropWhile isBracketChar).reverse.dropWhile isBracketChar).reverse

/-- Python version.lstrip of the comparator characters in bump_version. -/
def stripComparators (s : List Char) : List Char := s.dropWhile isComparator

/-- Worker of splitlines: acc holds the reversed current line. A trailing
boundary does not open a final empty line, and a CR LF pair is a single
boundary. -/
def splitlinesGo : List Char → List Char → List (List Char)
  | acc, [] => [acc.reverse]
  | acc, '\r' :: '\n' :: rest =>
      acc.reverse :: (if rest.isEmpty then [] else splitlinesGo [] rest)
  | acc, c :: rest =>
      if isLineBoundary c then
        acc.reverse :: (if rest.isEmpty then [] else splitlinesGo [] rest)
      else splitlinesGo (c :: acc) rest

/-- Python str.splitlines(keepends=False). -/
def splitlines (s : List Char) : List (List Char) :=
  if s.isEmpty then [] else splitlinesGo [] s

/-- Python "\n".join(lines), as executed by main before write_text. -/
def joinLines : List (List Char) → List Char
  | [] => []
  | [l] => l
  | l :: rest => l ++ '\n' :: joinLines rest

/-- Regex \s* followed by a required character: the whitespace run is
consumed greedily and deterministically since the next required character
is never whitespace in the two patterns. -/
def dropSpaces (s : List Char) : List Char := s.dropWhile isPySpace

/-- Worker for str.replace with a non-empty pattern: scan left to right;
after emitting a replacement, the first argument counts the remaining
characters of the matched occurrence still to be consumed. -/
def replaceGo (old new : List Char) : Nat → List Char → List Char
  | _, [] => []
  | skip + 1, _ :: rest => replaceGo old new skip rest
  | 0, c :: rest =>
      if old.isPrefixOf (c :: rest) then
        new ++ replaceGo old new (old.length - 1) rest
      else
        c :: replaceGo old new 0 rest

/-- Python str.replace for a non-empty pattern: replace every leftmost
non-overlapping occurrence. -/
def replaceAllNe (old new s : List Char) : List Char :=
  replaceGo old new 0 s

/-- Python str.replace(old, new): for an empty old, new is inserted before
every character and at the end, otherwise every leftmost non-overlapping
occurrence of old is replaced. -/
def replaceAll (old new s : List Char) : List Char :=
  if old.isEmpty then new ++ s.flatMap (fun c => c :: new)
  else replaceAllNe old new s

/-- Reading of the regex fragment [\^\~\>\=\<\!]?[\d\.\-\w]+\" at the
position just after an opening quote: an optional comparator, a maximal
non-empty run of token characters, then the closing quote. Returns the
captured version group and the text after the closing quote. -/
def versionGroup (s : List Char) : Option (List Char × List Char) :=
  let (comp, s1) :=
    match s with
    | c :: r => if isComparator c then ([c], r) else (([] : List Char), s)
    | [] => (([] : List Char), ([] : List Char))
  let run := s1.takeWhile isTokenChar
  let s2 := s1.dropWhile isTokenChar
  if run.isEmpty then none
  else
    match s2 with
    | '"' :: rest => some (comp ++ run, rest)
    | _ => none

/-- Match of the RAW_VERSION_RE tail \s*=\s*\"(version)\" against a
suffix of the line; returns the captured version group. -/
def rawSuffixMatch (s : List Char) : Option (List Char) :=
  match dropSpaces s with
  | '=' :: r1 =>
      match dropSpaces r1 with
      | '"' :: r2 => (versionGroup r2).map Prod.fst
      | _ => none
  | _ => none

/-- Greedy search for the package group of RAW_VERSION_RE: the longest
newline-free prefix whose remaining suffix matches the pattern tail.
Tried from the longest split down, as the greedy .* backtracks. -/
def rawMatchFrom (line : List Char) : Nat → Option (List Char × List Char)
  | 0 => (rawSuffixMatch line).map (fun v => (([] : List Char), v))
  | k + 1 =>
      if '\n' ∈ line.take (k + 1) then rawMatchFrom line k
      else
        match rawSuffixMatch (line.drop (k + 1)) with
        | some v => some (line.take (k + 1), v)
        | none => rawMatchFrom line k

/-- Embedding of RAW_VERSION_RE.match: the package and version groups of
the match anchored at the start of the line, if any. -/
def rawMatch (line : List Char) : Option (List Char × List Char) :=
  rawMatchFrom line line.length

/-- Test for the closing brace required by the regex tail (.*)\x7d: some
closing brace must be reachable without crossing a newline. -/
def hasCloseBrace (s : List Char) : Bool :=
  (s.takeWhile (fun c => c != '\n')).contains '\x7d'

/-- Match of the literal key and tail version\s*=\s*\"(version)\"(.*)\x7d
of EXPANDED_VER_RE at a given position inside the braces. -/
def expAt (t : List Char) : Option (List Char) :=
  if "version".toList.isPrefixOf t then
    match dropSpaces (t.drop 7) with
    | '=' :: r1 =>
        match dropSpaces r1 with
        | '"' :: r2 =>
            match versionGroup r2 with
            | some (v, rest) => if hasCloseBrace rest then some v else none
            | none => none
        | _ => none
    | _ => none
  else none

/-- Greedy search for the second group (.*) of EXPANDED_VER_RE: the
longest newline-free run inside the braces after which the version key
matches. -/
def expBodyFrom (body : List Char) : Nat → Option (List Char)
  | 0 => expAt body
  | k + 1 =>
      if '\n' ∈ body.take (k + 1) then expBodyFrom body k
      else
        match expAt (body.drop (k + 1)) with
        | some v => some v
        | none => expBodyFrom body k

/-- Match of the EXPANDED_VER_RE tail \s*=\s*\x7b... against a suffix of
the line; returns the captured version group. -/
def expSuffixMatch (s : List Char) : Option (List Char) :=
  match dropSpaces s with
  | '=' :: r1 =>
      match dropSpaces r1 with
      | '\x7b' :: body => expBodyFrom body body.length
      | _ => none
  | _ => none

/-- Greedy search for the package group of EXPANDED_VER_RE. -/
def expMatchFrom (line : List Char) : Nat → Option (List Char × List Char)
  | 0 => (expSuffixMatch line).map (fun v => (([] : List Char), v))
  | k + 1 =>
      if '\n' ∈ line.take (k + 1) then expMatchFrom line k
      else
        match expSuffixMatch (line.drop (k + 1)) with
        | some v => some (line.take (k + 1), v)
        | none => expMatchFrom line k

/-- Embedding of EXPANDED_VER_RE.match: the package and version groups of
the match anchored at the start of the line, if any. -/
def expMatch (line : List Char) : Option (List Char × List Char) :=
  expMatchFrom line line.length

/-- Parse step of bump_version: EXPANDED_VER_RE is tried first; only when
it does not match is RAW_VERSION_RE consulted. On success the package
group is stripped of whitespace and the version group of its leading
comparator characters, exactly as in the source. -/
def parseDependency (dep : List Char) : Option (List Char × List Char) :=
  match expMatch dep with
  | some (p, v) => some (pyStrip p, stripComparators v)
  | none =>
      match rawMatch dep with
      | some (p, v) => some (pyStrip p, stripComparators v)
      | none => none

/-- Sentinel string returned by bump_version when neither pattern
matches. -/
def notDefined : List Char := "This is not defined".toList

/-- Embedding of bump_version. The network lookup get_new_version is the
parameter latest; none models a non-success response. The returned
Option String of the source maps to Option (List Char): none is the
Python None return, some is a returned string, including the sentinel. -/
def bump_version (latest : List Char → Option (List Char))
    (dependency : List Char) : Option (List Char) :=
  match parseDependency dependency with
  | none => some notDefined
  | some (package, version) =>
      match latest package with
      | none => none
      | some newVersion =>
          if version = newVersion then none
          else some (replaceAll version newVersion dependency)

/-- Exact header line recognised by get_dependencies. -/
def sectionHeader (sect : List Char) : List Char := '[' :: (sect ++ [']'])

/-- Literal of the reserved interpreter key test line.startswith. -/
def pythonKey : List Char := "python =".toList

/-- Literal of the templating delimiter test line.startswith. -/
def templateDelim : List Char := ['\x7b', '%']

/-- Loop body of get_dependencies: the recording flag starts sections on
the exact header line, ends them on any other bracketed header, skips the
interpreter key and templating lines, and collects indexed lines while
recording. -/
def getDepsAux (sect : List Char) : Bool → Nat → List (List Char) → List (Nat × List Char)
  | _, _, [] => []
  | r, idx, line :: rest =>
      if ['['].isPrefixOf line ∧ pyStripBrackets line ≠ sect then
        getDepsAux sect false (idx + 1) rest
      else if line = sectionHeader sect then
        getDepsAux sect true (idx + 1) rest
      else if pythonKey.isPrefixOf line then
        getDepsAux sect r (idx + 1) rest
      else if templateDelim.isPrefixOf line then
        getDepsAux sect r (idx + 1) rest
      else if r then
        (idx, line) :: getDepsAux sect true (idx + 1) rest
      else
        getDepsAux sect r (idx + 1) rest

/-- Embedding of get_dependencies, over the file content instead of the
path. -/
def get_dependencies (content sect : List Char) : List (Nat × List Char) :=
  getDepsAux sect false 0 (splitlines content)

/-- Rewrite loop of main: for each extracted line, a truthy bump result
(a non-empty string, the sentinel included) overwrites the line at its
index; None and the empty string leave the buffer untouched. -/
def rewriteLines (latest : List Char → Option (List Char))
    (deps : List (Nat × List Char)) (lines : List (List Char)) : List (List Char) :=
  deps.foldl
    (fun ls p =>
      match bump_version latest p.2 with
      | some nv => if nv = [] then ls else ls.set p.1 nv
      | none => ls)
    lines

/-- Embedding of main: read the content, extract the section, rewrite the
lines, and join the buffer with single newlines for write_text. -/
def main_update (latest : List Char → Option (List Char))
    (sect content : List Char) : List Char :=
  joinLines (rewriteLines latest (get_dependencies content sect) (splitlines content))

/-- One step of the recording flag of get_dependencies, mirroring the
branch conditions of the loop. -/
def nextState (sect : List Char) (r : Bool) (line : List Char) : Bool :=
  if ['['].isPrefixOf line ∧ pyStripBrackets line ≠ sect then false
  else if line = sectionHeader sect then true
  else r

/-- Modelled from the spec: replacement of only the first occurrence, as
the words of the spec describe the rewriting step. The source uses
str.replace, which replaces every occurrence; this definition exists to
be compared against it. -/
def replaceFirstOccurrence (old new : List Char) : List Char → List Char
  | [] => []
  | c :: rest =>
      if old ≠ [] ∧ old.isPrefixOf (c :: rest) then
        new ++ rest.drop (old.length - 1)
      else
        c :: replaceFirstOccurrence old new rest

/-- Decidable form of the hypothesis of the amended idempotence claim:
the resolver leaves this extracted line unchanged, either by returning
None or by returning the very text the line already holds. -/
def bumpKeeps (latest : List Char → Option (List Char)) (p : Nat × List Char) : Bool :=
  match bump_version latest p.2 with
  | none => true
  | some nd => decide (nd = p.2)

theorem isPrefixOf_eq_take : ∀ (a b : List Char), a.isPrefixOf b = true ↔ b.take a.length = a
  | [], b => by simp [List.isPrefixOf]
  | a :: as, [] => by simp [List.isPrefixOf]
  | a :: as, b :: bs => by
      simp only [List.isPrefixOf, List.length_cons, List.take_succ_cons, Bool.and_eq_true,
        beq_iff_eq, List.cons.injEq]
      constructor
      · rintro ⟨h1, h2⟩
        exact ⟨h1.symm, (isPrefixOf_eq_take as bs).mp h2⟩
      · rintro ⟨h1, h2⟩
        exact ⟨h1.symm, (isPrefixOf_eq_take as bs).mpr h2⟩

theorem length_le_of_isPrefixOf {a b : List Char} (h : a.isPrefixOf b = true) :
    a.length ≤ b.length := by
  have ht := (isPrefixOf_eq_take a b).mp h
  have := congrArg List.length ht
  simp only [List.length_take] at this
  omega

theorem getDepsAux_lb (sect : List Char) :
    ∀ (ls : List (List Char)) (r : Bool) (idx : Nat) (p : Nat × List Char),
      p ∈ getDepsAux sect r idx ls → idx ≤ p.1
  | [], _, _, _, h => by simp [getDepsAux] at h
  | l :: rest, r, idx, p, h => by
      simp only [getDepsAux] at h
      split_ifs at h with h1 h2 h3 h4 h5
      · exact Nat.le_of_succ_le (getDepsAux_lb sect rest false (idx + 1) p h)
      · exact Nat.le_of_succ_le (getDepsAux_lb sect rest true (idx + 1) p h)
      · exact Nat.le_of_succ_le (getDepsAux_lb sect rest r (idx + 1) p h)
      · exact Nat.le_of_succ_le (getDepsAux_lb sect rest r (idx + 1) p h)
      · rcases List.mem_cons.mp h with he | hm
        · rw [he]
        · exact Nat.le_of_succ_le (getDepsAux_lb sect rest true (idx + 1) p hm)
      · exact Nat.le_of_succ_le (getDepsAux_lb sect rest r (idx + 1) p h)

theorem getDepsAux_nil_of_no_header (sect : List Char) :
    ∀ (ls : List (List Char)) (idx : Nat),
      sectionHeader sect ∉ ls → getDepsAux sect false idx ls = []
  | [], _, _ => rfl
  | l :: rest, idx, h => by
      have hl : l ≠ sectionHeader sect := by
        intro he
        exact h (he ▸ List.mem_cons_self l rest)
      have hrest : sectionHeader sect ∉ rest := fun hm => h (List.mem_cons_of_mem _ hm)
      simp only [getDepsAux]
      split_ifs
      all_goals
        first
          | exact getDepsAux_nil_of_no_header sect rest (idx + 1) hrest
          | exact absurd (by assumption : l = sectionHeader sect) hl
          | simp_all

theorem rewriteLines_cons (latest : List Char → Option (List Char))
    (d : Nat × List Char) (deps : List (Nat × List Char)) (lines : List (List Char)) :
    rewriteLines latest (d :: deps) lines =
      rewriteLines latest deps
        (match bump_version latest d.2 with
         | some nv => if nv = [] then lines else lines.set d.1 nv
         | none => lines) := rfl

theorem rewriteLines_getElem?_not_mem (latest : List Char → Option (List Char)) :
    ∀ (deps : List (Nat × List Char)) (lines : List (List Char)) (i : Nat),
      i ∉ deps.map Prod.fst →
      (rewriteLines latest deps lines)[i]? = lines[i]?
  | [], _, _, _ => rfl
  | d :: deps, lines, i, h => by
      have hd : d.1 ≠ i := by
        intro he
        exact h (he ▸ List.mem_map_of_mem Prod.fst (List.mem_cons_self d deps))
      have htl : i ∉ deps.map Prod.fst := fun hm => h (List.mem_cons_of_mem _ hm)
      rw [rewriteLines_cons]
      cases hb : bump_version latest d.2 with
      | none => exact rewriteLines_getElem?_not_mem latest deps lines i htl
      | some nv =>
          show (rewriteLines latest deps
            (if nv = [] then lines else lines.set d.1 nv))[i]? = lines[i]?
          by_cases hnv : nv = []
          · rw [if_pos hnv]
            exact rewriteLines_getElem?_not_mem latest deps lines i htl
          · rw [if_neg hnv]
            rw [rewriteLines_getElem?_not_mem latest deps (lines.set d.1 nv) i htl]
            exact List.getElem?_set_ne hd

theorem set_self_of_getElem? :
    ∀ (ls : List (List Char)) (i : Nat) (a : List Char),
      ls[i]? = some a → ls.set i a = ls
  | [], _, _, h => by simp at h
  | x :: xs, 0, a, h => by
      simp only [List.getElem?_cons_zero, Option.some.injEq] at h
      simp [List.set, h]
  | x :: xs, i + 1, a, h => by
      simp only [List.getElem?_cons_succ] at h
      simp [List.set, set_self_of_getElem? xs i a h]

theorem getDepsAux_mem_getElem? (sect : List Char) :
    ∀ (ls : List (List Char)) (r : Bool) (idx : Nat) (i : Nat) (d : List Char),
      (i, d) ∈ getDepsAux sect r idx ls →
      ∃ j, i = idx + j ∧ ls[j]? = some d
  | [], _, _, _, _, h => by simp [getDepsAux] at h
  | l :: rest, r, idx, i, d, h => by
      simp only [getDepsAux] at h
      have step : ∀ r2, (i, d) ∈ getDepsAux sect r2 (idx + 1) rest →
          ∃ j, i = idx + j ∧ (l :: rest)[j]? = some d := by
        intro r2 hm
        obtain ⟨j, hj, hget⟩ := getDepsAux_mem_getElem? sect rest r2 (idx + 1) i d hm
        exact ⟨j + 1, by omega, by simpa using hget⟩
      split_ifs at h with h1 h2 h3 h4 h5
      · exact step false h
      · exact step true h
      · exact step r h
      · exact step r h
      · rcases List.mem_cons.mp h with he | hm
        · refine ⟨0, ?_, ?_⟩
          · simpa using congrArg Prod.fst he
          · simpa using (congrArg Prod.snd he).symm
        · exact step true hm
      · exact step r h

/-- Claim C1 evidence: on a section line that neither pattern parses, the
resolver returns the sentinel string, and since a non-empty string is
truthy the rewrite loop writes the sentinel into the line buffer. -/
theorem C1_sentinel_written_back :
    bump_version (fun _ => none) ("not a dependency line".toList) = some notDefined ∧
    main_update (fun _ => none) ("tool.poetry.dependencies".toList)
        ("[tool.poetry.dependencies]\nnot a dependency line".toList) =
      "[tool.poetry.dependencies]\nThis is not defined".toList := by decide

/-- Claim C2, counterexample: for the parseable line foo1.1 = "1.1" with
latest version 2.0, the rewritten line is not the first-occurrence-only
replacement: every occurrence of 1.1 is replaced, altering the package
name as well. -/
theorem C2_counterexample :
    bump_version (fun p => if p = "foo1.1".toList then some ("2.0".toList) else none)
        ("foo1.1 = \"1.1\"".toList) = some ("foo2.0 = \"2.0\"".toList) ∧
    "foo2.0 = \"2.0\"".toList ≠
      replaceFirstOccurrence ("1.1".toList) ("2.0".toList) ("foo1.1 = \"1.1\"".toList) := by
  decide

/-- Claim C2 as amended: for every parseable dependency line whose looked
up latest version differs from the comparator-stripped current version,
the new line is the original with every leftmost non-overlapping
occurrence of the stripped old version replaced by the new version
string. -/
theorem C2_replaces_every_occurrence (latest : List Char → Option (List Char))
    (dep p v nv : List Char)
    (hp : parseDependency dep = some (p, v))
    (hl : latest p = some nv)
    (hne : v ≠ nv) :
    bump_version latest dep = some (replaceAll v nv dep) := by
  simp only [bump_version, hp, hl]
  simp [hne]

theorem C2_witness :
    bump_version (fun p => if p = "foo".toList then some ("1.3.0".toList) else none)
        ("foo = \"1.2.3\"".toList) = some ("foo = \"1.3.0\"".toList) :=
  Eq.trans
    (C2_replaces_every_occurrence
      (fun p => if p = "foo".toList then some ("1.3.0".toList) else none)
      ("foo = \"1.2.3\"".toList) ("foo".toList) ("1.2.3".toList) ("1.3.0".toList)
      (by decide) (by decide) (by decide))
    (by decide)

/-- Claim C3, counterexample: a file with a trailing newline and no
target section is not written back byte for byte: the join drops the
trailing newline. -/
theorem C3_counterexample :
    sectionHeader ("tool.poetry.dependencies".toList) ∉ splitlines ("a\n".toList) ∧
    main_update (fun _ => none) ("tool.poetry.dependencies".toList) ("a\n".toList) ≠
      "a\n".toList := by decide

/-- Claim C3 as amended: when the target section header never appears,
the content written back equals the input lines joined by single
newlines; this is byte for byte the original exactly when the original
already equals that join. -/
theorem C3_no_section_preserves_lines (latest : List Char → Option (List Char))
    (sect content : List Char)
    (h : sectionHeader sect ∉ splitlines content) :
    main_update latest sect content = joinLines (splitlines content) := by
  unfold main_update get_dependencies
  rw [getDepsAux_nil_of_no_header sect (splitlines content) 0 h]
  rfl

theorem C3_witness :
    main_update (fun _ => none) ("deps".toList) ("x = \"1\"\n[other]".toList) =
      joinLines (splitlines ("x = \"1\"\n[other]".toList)) :=
  C3_no_section_preserves_lines (fun _ => none) ("deps".toList)
    ("x = \"1\"\n[other]".toList) (by decide)

/-- Claim C6: for a parseable dependency line, a failed index lookup
leaves the line unchanged (the resolver returns None), and so does a
latest version equal to the comparator-stripped current version. -/
theorem C6_no_update_cases (latest : List Char → Option (List Char))
    (dep p v : List Char)
    (hp : parseDependency dep = some (p, v)) :
    (latest p = none → bump_version latest dep = none) ∧
    (latest p = some v → bump_version latest dep = none) := by
  constructor
  · intro hl
    simp [bump_version, hp, hl]
  · intro hl
    simp [bump_version, hp, hl]

theorem C6_witness :
    bump_version (fun _ => none) ("foo = \"1.2.3\"".toList) = none :=
  (C6_no_update_cases (fun _ => none) ("foo = \"1.2.3\"".toList)
    ("foo".toList) ("1.2.3".toList) (by decide)).1 rfl

/-- Claim C9: when both patterns match a line, the inline-table parse is
the one consulted: the resolved package and version are the stripped
groups of the inline-table match, whatever the bare-quoted match would
capture. -/
theorem C9_inline_table_first (dep pe ve pr vr : List Char)
    (he : expMatch dep = some (pe, ve))
    (_hr : rawMatch dep = some (pr, vr)) :
    parseDependency dep = some (pyStrip pe, stripComparators ve) := by
  simp [parseDependency, he]

theorem C9_witness :
    parseDependency ("a = \x7b version = \"1.0\" \x7d".toList) =
      some (pyStrip ("a ".toList), stripComparators ("1.0".toList)) :=
  C9_inline_table_first ("a = \x7b version = \"1.0\" \x7d".toList)
    ("a ".toList) ("1.0".toList) ("a = \x7b version ".toList) ("1.0".toList)
    (by decide) (by decide)

/-- Claim C5: rewriting only ever touches indices returned by section
extraction; every other index of the line buffer keeps its original
entry. -/
theorem C5_frame (latest : List Char → Option (List Char))
    (sect content : List Char) (i : Nat)
    (h : i ∉ (get_dependencies content sect).map Prod.fst) :
    (rewriteLines latest (get_dependencies content sect) (splitlines content))[i]? =
      (splitlines content)[i]? :=
  rewriteLines_getElem?_not_mem latest (get_dependencies content sect) (splitlines content) i h

theorem C5_witness :
    (rewriteLines (fun _ => some ("9.9".toList))
        (get_dependencies ("[deps]\nfoo = \"1.0\"".toList) ("deps".toList))
        (splitlines ("[deps]\nfoo = \"1.0\"".toList)))[0]? =
      (splitlines ("[deps]\nfoo = \"1.0\"".toList))[0]? :=
  C5_frame (fun _ => some ("9.9".toList)) ("deps".toList)
    ("[deps]\nfoo = \"1.0\"".toList) 0 (by decide)

theorem getDepsAux_skip_not_mem (sect : List Char) :
    ∀ (ls : List (List Char)) (r : Bool) (idx : Nat) (j : Nat) (line : List Char),
      ls[j]? = some line →
      (pythonKey.isPrefixOf line = true ∨ templateDelim.isPrefixOf line = true) →
      ∀ d, (idx + j, d) ∉ getDepsAux sect r idx ls
  | [], _, _, j, _, hget, _, _ => by simp at hget
  | l :: rest, r, idx, j, line, hget, hkey, d => by
      match j with
      | 0 =>
          simp only [List.getElem?_cons_zero, Option.some.injEq] at hget
          subst hget
          intro hmem
          simp only [getDepsAux] at hmem
          split_ifs at hmem with h1 h2 h3 h4 h5
          · exact absurd (getDepsAux_lb sect rest false (idx + 1) _ hmem) (by simp)
          · exact absurd (getDepsAux_lb sect rest true (idx + 1) _ hmem) (by simp)
          · exact absurd (getDepsAux_lb sect rest r (idx + 1) _ hmem) (by simp)
          · exact absurd (getDepsAux_lb sect rest r (idx + 1) _ hmem) (by simp)
          · rcases hkey with hk | hk
            · exact h3 hk
            · exact h4 hk
          · exact absurd (getDepsAux_lb sect rest r (idx + 1) _ hmem) (by simp)
      | j1 + 1 =>
          simp only [List.getElem?_cons_succ] at hget
          intro hmem
          have hrec : ∀ r2, (idx + (j1 + 1), d) ∉ getDepsAux sect r2 (idx + 1) rest := by
            intro r2 hm
            have heq : idx + (j1 + 1) = (idx + 1) + j1 := by omega
            exact getDepsAux_skip_not_mem sect rest r2 (idx + 1) j1 line hget hkey d (heq ▸ hm)
          simp only [getDepsAux] at hmem
          split_ifs at hmem with h1 h2 h3 h4 h5
          · exact hrec false hmem
          · exact hrec true hmem
          · exact hrec r hmem
          · exact hrec r hmem
          · rcases List.mem_cons.mp hmem with he | hm
            · have : idx + (j1 + 1) = idx := congrArg Prod.fst he
              omega
            · exact hrec true hm
          · exact hrec r hmem

/-- Claim C8: a line that starts with the reserved interpreter key or
with the templating delimiter is never returned by section extraction,
at any index and under any index behavior, and its buffer entry is never
rewritten. -/
theorem C8_reserved_lines_untouched (latest : List Char → Option (List Char))
    (sect content : List Char) (i : Nat) (line : List Char)
    (hline : (splitlines content)[i]? = some line)
    (hkey : pythonKey.isPrefixOf line = true ∨ templateDelim.isPrefixOf line = true) :
    (∀ d, (i, d) ∉ get_dependencies content sect) ∧
    (rewriteLines latest (get_dependencies content sect) (splitlines content))[i]? =
      some line := by
  have h1 : ∀ d, (i, d) ∉ get_dependencies content sect := by
    intro d hm
    have h0 : (0 + i, d) ∈ getDepsAux sect false 0 (splitlines content) := by
      simpa using hm
    exact getDepsAux_skip_not_mem sect (splitlines content) false 0 i line hline hkey d h0
  refine ⟨h1, ?_⟩
  have hni : i ∉ (get_dependencies content sect).map Prod.fst := by
    intro hm
    obtain ⟨p, hp, hfst⟩ := List.mem_map.mp hm
    have hpe : p = (i, p.2) := by
      rw [← hfst]
    exact h1 p.2 (hpe ▸ hp)
  rw [rewriteLines_getElem?_not_mem latest (get_dependencies content sect)
    (splitlines content) i hni, hline]

theorem C8_witness :
    (rewriteLines (fun _ => some ("9.9".toList))
        (get_dependencies ("[deps]\npython = \"3.10\"".toList) ("deps".toList))
        (splitlines ("[deps]\npython = \"3.10\"".toList)))[1]? =
      some ("python = \"3.10\"".toList) :=
  (C8_reserved_lines_untouched (fun _ => some ("9.9".toList)) ("deps".toList)
    ("[deps]\npython = \"3.10\"".toList) 1 ("python = \"3.10\"".toList)
    (by decide) (Or.inl (by decide))).2

theorem rewriteLines_id_of_keeps (latest : List Char → Option (List Char)) :
    ∀ (deps : List (Nat × List Char)) (lines : List (List Char)),
      (∀ p ∈ deps, bumpKeeps latest p = true) →
      (∀ p ∈ deps, lines[p.1]? = some p.2) →
      rewriteLines latest deps lines = lines
  | [], _, _, _ => rfl
  | d :: deps, lines, hkeep, hget => by
      have hktl : ∀ p ∈ deps, bumpKeeps latest p = true :=
        fun p hp => hkeep p (List.mem_cons_of_mem _ hp)
      have hgtl : ∀ p ∈ deps, lines[p.1]? = some p.2 :=
        fun p hp => hget p (List.mem_cons_of_mem _ hp)
      have hkd := hkeep d (List.mem_cons_self d deps)
      have hgd := hget d (List.mem_cons_self d deps)
      rw [rewriteLines_cons]
      cases hb : bump_version latest d.2 with
      | none => exact rewriteLines_id_of_keeps latest deps lines hktl hgtl
      | some nv =>
          have hnd : nv = d.2 := by
            unfold bumpKeeps at hkd
            rw [hb] at hkd
            exact of_decide_eq_true hkd
          show rewriteLines latest deps (if nv = [] then lines else lines.set d.1 nv) = lines
          by_cases hnv : nv = []
          · rw [if_pos hnv]
            exact rewriteLines_id_of_keeps latest deps lines hktl hgtl
          · rw [if_neg hnv, hnd, set_self_of_getElem? lines d.1 d.2 hgd]
            exact rewriteLines_id_of_keeps latest deps lines hktl hgtl

/-- Claim C4, counterexample: with a package index that is the same
stable function in both runs, a second run of the updater changes the
output of the first run again. The replacement of every occurrence of
the old version rewrites the package name foo1.1 into foo2.0, whose
latest version differs, so the second run bumps the line once more. -/
theorem C4_counterexample :
    main_update
        (fun p => if p = "foo1.1".toList then some ("2.0".toList)
                  else if p = "foo2.0".toList then some ("3.0".toList) else none)
        ("tool.poetry.dependencies".toList)
        (main_update
          (fun p => if p = "foo1.1".toList then some ("2.0".toList)
                    else if p = "foo2.0".toList then some ("3.0".toList) else none)
          ("tool.poetry.dependencies".toList)
          ("[tool.poetry.dependencies]\nfoo1.1 = \"1.1\"".toList)) ≠
      main_update
        (fun p => if p = "foo1.1".toList then some ("2.0".toList)
                  else if p = "foo2.0".toList then some ("3.0".toList) else none)
        ("tool.poetry.dependencies".toList)
        ("[tool.poetry.dependencies]\nfoo1.1 = \"1.1\"".toList) := by decide

/-- Claim C4 as amended: a run of the updater is a no-op on any content
that equals the newline join of its own lines and whose extracted
candidate lines are each left unchanged by the resolver (lookup failure,
version already latest, or a rewrite producing identical text). The
first run's output need not satisfy this: when replacing the version
substring also alters the package name, the second run makes further
changes. -/
theorem C4_second_run_fixed_point (latest : List Char → Option (List Char))
    (sect content : List Char)
    (hjoin : content = joinLines (splitlines content))
    (hkeep : ∀ p ∈ get_dependencies content sect, bumpKeeps latest p = true) :
    main_update latest sect content = content := by
  unfold main_update
  rw [rewriteLines_id_of_keeps latest (get_dependencies content sect) (splitlines content)
    hkeep ?_, ← hjoin]
  intro p hp
  obtain ⟨j, hj, hget⟩ := getDepsAux_mem_getElem? sect (splitlines content) false 0 p.1 p.2
    (by exact hp)
  rw [hj]
  simpa using hget

theorem C4_witness :
    main_update (fun p => if p = "foo".toList then some ("1.0".toList) else none)
        ("tool.poetry.dependencies".toList)
        ("[tool.poetry.dependencies]\nfoo = \"1.0\"".toList) =
      "[tool.poetry.dependencies]\nfoo = \"1.0\"".toList :=
  C4_second_run_fixed_point
    (fun p => if p = "foo".toList then some ("1.0".toList) else none)
    ("tool.poetry.dependencies".toList)
    ("[tool.poetry.dependencies]\nfoo = \"1.0\"".toList)
    (by decide) (by decide)

theorem token_not_comparator (c : Char) (h : isTokenChar c = true) :
    isComparator c = false := by
  cases hcc : isComparator c with
  | false => rfl
  | true =>
      exfalso
      simp only [isComparator, Bool.or_eq_true, decide_eq_true_eq] at hcc
      rcases hcc with ((((h1 | h1) | h1) | h1) | h1) | h1 <;> subst h1 <;>
        exact absurd h (by decide)

theorem comparator_not_token (c : Char) (h : isComparator c = true) :
    isTokenChar c = false := by
  cases hcc : isTokenChar c with
  | false => rfl
  | true =>
      exfalso
      simp only [isComparator, Bool.or_eq_true, decide_eq_true_eq] at h
      rcases h with ((((h1 | h1) | h1) | h1) | h1) | h1 <;> subst h1 <;>
        exact absurd hcc (by decide)

theorem stripComparators_eq_self {v : List Char}
    (hv : ∀ ch ∈ v, isTokenChar ch = true) : stripComparators v = v := by
  cases v with
  | nil => rfl
  | cons a l =>
      have ha := token_not_comparator a (hv a (List.mem_cons_self a l))
      simp [stripComparators, List.dropWhile_cons, ha]

theorem replaceGo_skip (old new : List Char) :
    ∀ (k : Nat) (s : List Char), replaceGo old new k s = replaceGo old new 0 (s.drop k)
  | 0, s => by rw [List.drop_zero]
  | k + 1, [] => by simp [replaceGo]
  | k + 1, c :: rest => by
      rw [show replaceGo old new (k + 1) (c :: rest) = replaceGo old new k rest from rfl]
      rw [show (c :: rest).drop (k + 1) = rest.drop k from rfl]
      exact replaceGo_skip old new k rest

theorem replaceAllNe_cons (old new : List Char) (c : Char) (rest : List Char) :
    replaceAllNe old new (c :: rest) =
      if old.isPrefixOf (c :: rest) = true then
        new ++ replaceAllNe old new (rest.drop (old.length - 1))
      else c :: replaceAllNe old new rest := by
  show replaceGo old new 0 (c :: rest) = _
  rw [show replaceGo old new 0 (c :: rest) =
      if old.isPrefixOf (c :: rest) = true then
        new ++ replaceGo old new (old.length - 1) rest
      else c :: replaceGo old new 0 rest from rfl]
  rw [replaceGo_skip old new (old.length - 1) rest]
  rfl

theorem not_isPrefixOf_cons_token (old : List Char) (c : Char) (t : List Char)
    (hold : ∀ ch ∈ old, isTokenChar ch = true) (hne : old ≠ [])
    (hc : isTokenChar c = false) :
    old.isPrefixOf (c :: t) = false := by
  match old, hne with
  | o :: ot, _ =>
      have ho := hold o (List.mem_cons_self o ot)
      have hoc : o ≠ c := by
        intro he
        rw [he, hc] at ho
        cases ho
      show List.isPrefixOf (o :: ot) (c :: t) = false
      simp [List.isPrefixOf, hoc]

theorem replaceAllNe_head (old new w : List Char) (hne : old ≠ []) :
    replaceAllNe old new (old ++ w) = new ++ replaceAllNe old new w := by
  match old, hne with
  | o :: ot, _ =>
      have hp : (o :: ot).isPrefixOf ((o :: ot) ++ w) = true := by
        rw [isPrefixOf_eq_take, List.take_append_of_le_length (Nat.le_refl _)]
        exact List.take_length (o :: ot)
      rw [show (o :: ot) ++ w = o :: (ot ++ w) from rfl]
      rw [replaceAllNe_cons (o :: ot) new o (ot ++ w), if_pos (by exact hp)]
      congr 1
      rw [show (o :: ot).length - 1 = ot.length from by simp]
      rw [List.drop_append_of_le_length (Nat.le_refl _), List.drop_length, List.nil_append]

theorem replaceAllNe_sep (old new : List Char) (c : Char)
    (hold : ∀ ch ∈ old, isTokenChar ch = true) (hne : old ≠ [])
    (hc : isTokenChar c = false) (u t : List Char) :
    replaceAllNe old new (u ++ c :: t) =
      replaceAllNe old new u ++ c :: replaceAllNe old new t := by
  have base : ∀ t2, replaceAllNe old new (c :: t2) = c :: replaceAllNe old new t2 := by
    intro t2
    have hfp := not_isPrefixOf_cons_token old c t2 hold hne hc
    rw [replaceAllNe_cons]
    rw [if_neg (by rw [hfp]; exact Bool.false_ne_true)]
  suffices h : ∀ n u2 t2, u2.length ≤ n →
      replaceAllNe old new (u2 ++ c :: t2) =
        replaceAllNe old new u2 ++ c :: replaceAllNe old new t2 by
    exact h u.length u t (Nat.le_refl _)
  intro n
  induction n with
  | zero =>
      intro u2 t2 hu
      have hu0 : u2 = [] := List.eq_nil_of_length_eq_zero (Nat.le_zero.mp hu)
      subst hu0
      simpa using base t2
  | succ n ih =>
      intro u2 t2 hu
      match u2 with
      | [] => simpa using base t2
      | a :: u1 =>
          simp only [List.length_cons, Nat.add_le_add_iff_right] at hu
          simp only [List.cons_append]
          by_cases hp : old.isPrefixOf (a :: (u1 ++ c :: t2)) = true
          · have htake := (isPrefixOf_eq_take _ _).mp hp
            rw [show a :: (u1 ++ c :: t2) = (a :: u1) ++ (c :: t2) from rfl] at htake
            have hlen : old.length ≤ u1.length + 1 := by
              by_contra hgt
              push_neg at hgt
              have hsplit : old = (a :: u1) ++ (c :: t2).take (old.length - (u1.length + 1)) := by
                conv_lhs => rw [← htake]
                rw [List.take_append_eq_append_take]
                congr 1
                apply List.take_of_length_le
                simp only [List.length_cons]
                omega
              have hcm : c ∈ old := by
                rw [hsplit]
                apply List.mem_append_right
                have h1 : 0 < old.length - (u1.length + 1) := by omega
                cases hdk : old.length - (u1.length + 1) with
                | zero => omega
                | succ m => simp
              have hct := hold c hcm
              rw [hc] at hct
              cases hct
            have hp2 : old.isPrefixOf (a :: u1) = true := by
              rw [isPrefixOf_eq_take]
              have hta : ((a :: u1) ++ (c :: t2)).take old.length =
                  (a :: u1).take old.length :=
                List.take_append_of_le_length (by simpa using hlen)
              rw [← hta, htake]
            rw [replaceAllNe_cons old new a (u1 ++ c :: t2), if_pos hp]
            rw [replaceAllNe_cons old new a u1, if_pos hp2]
            have hone : 1 ≤ old.length := by
              match old, hne with
              | _ :: _, _ => simp
            have hd : (u1 ++ c :: t2).drop (old.length - 1) =
                u1.drop (old.length - 1) ++ c :: t2 :=
              List.drop_append_of_le_length (by omega)
            rw [hd]
            rw [ih (u1.drop (old.length - 1)) t2 (by simp only [List.length_drop]; omega)]
            simp
          · have hp2 : old.isPrefixOf (a :: u1) = false := by
              cases hxx : old.isPrefixOf (a :: u1) with
              | false => rfl
              | true =>
                  exfalso
                  apply hp
                  rw [isPrefixOf_eq_take]
                  have hlen2 := length_le_of_isPrefixOf hxx
                  rw [show a :: (u1 ++ c :: t2) = (a :: u1) ++ (c :: t2) from rfl]
                  rw [List.take_append_of_le_length hlen2]
                  exact (isPrefixOf_eq_take _ _).mp hxx
            rw [replaceAllNe_cons old new a (u1 ++ c :: t2), if_neg hp]
            rw [replaceAllNe_cons old new a u1, if_neg (by rw [hp2]; simp)]
            rw [ih u1 t2 hu]
            simp

/-- Claim C7: for a dependency line of either surface form whose matched
version group carries a leading comparator character — the group of the
inline-table match when that pattern matches, of the bare-quoted match
otherwise — equality with the latest version is decided on the
comparator-stripped version text, and a rewrite replaces only the
stripped version substring, so the comparator character standing
immediately before the version survives in place in the new line. -/
theorem C7_comparator_preserved (latest : List Char → Option (List Char))
    (dep u w p v nv : List Char) (c : Char)
    (hmatch : expMatch dep = some (p, c :: v) ∨
      (expMatch dep = none ∧ rawMatch dep = some (p, c :: v)))
    (hc : isComparator c = true)
    (hv : ∀ ch ∈ v, isTokenChar ch = true)
    (hvne : v ≠ [])
    (hl : latest (pyStrip p) = some nv)
    (hdep : dep = u ++ c :: v ++ w) :
    (v = nv → bump_version latest dep = none) ∧
    (v ≠ nv → bump_version latest dep =
      some (replaceAll v nv u ++ c :: (nv ++ replaceAll v nv w))) := by
  have hstrip : stripComparators (c :: v) = v := by
    unfold stripComparators
    rw [List.dropWhile_cons, if_pos hc]
    exact stripComparators_eq_self hv
  have hparse : parseDependency dep = some (pyStrip p, v) := by
    rcases hmatch with he | ⟨hexp, hraw⟩
    · simp [parseDependency, he, hstrip]
    · simp [parseDependency, hexp, hraw, hstrip]
  have hcnot : isTokenChar c = false := comparator_not_token c hc
  have hvempty : v.isEmpty = false := by
    cases v with
    | nil => exact absurd rfl hvne
    | cons a l => rfl
  constructor
  · intro hveq
    simp [bump_version, hparse, hl, hveq]
  · intro hvne2
    simp only [bump_version, hparse, hl]
    rw [if_neg hvne2]
    congr 1
    rw [show replaceAll v nv = replaceAllNe v nv from by
      funext s
      simp [replaceAll, hvempty]]
    rw [hdep]
    rw [show (u ++ c :: v) ++ w = u ++ (c :: (v ++ w)) from by simp]
    rw [replaceAllNe_sep v nv c hv hvne hcnot u (v ++ w)]
    rw [replaceAllNe_head v nv w hvne]

theorem C7_witness :
    bump_version (fun q => if q = "foo".toList then some ("2.0.0".toList) else none)
        ("foo = \x7b version = \"^1.2.3\" \x7d".toList) =
      some ("foo = \x7b version = \"^2.0.0\" \x7d".toList) ∧
    bump_version (fun q => if q = "foo".toList then some ("2.0.0".toList) else none)
        ("foo = \"^1.2.3\"".toList) = some ("foo = \"^2.0.0\"".toList) :=
  ⟨Eq.trans
    ((C7_comparator_preserved
        (fun q => if q = "foo".toList then some ("2.0.0".toList) else none)
        ("foo = \x7b version = \"^1.2.3\" \x7d".toList)
        ("foo = \x7b version = \"".toList) ("\" \x7d".toList)
        ("foo ".toList) ("1.2.3".toList) ("2.0.0".toList) '^'
        (Or.inl (by decide)) (by decide) (by decide) (by decide)
        (by decide) (by decide)).2 (by decide))
    (by decide),
   Eq.trans
    ((C7_comparator_preserved
        (fun q => if q = "foo".toList then some ("2.0.0".toList) else none)
        ("foo = \"^1.2.3\"".toList) ("foo = \"".toList) ("\"".toList)
        ("foo ".toList) ("1.2.3".toList) ("2.0.0".toList) '^'
        (Or.inr ⟨by decide, by decide⟩) (by decide) (by decide) (by decide)
        (by decide) (by decide)).2 (by decide))
    (by decide)⟩

theorem mem_getDepsAux_of_state (sect : List Char) :
    ∀ (ls : List (List Char)) (j : Nat) (line : List Char) (r : Bool) (idx : Nat),
      ls[j]? = some line →
      List.foldl (nextState sect) r (ls.take j) = true →
      ¬(['['].isPrefixOf line ∧ pyStripBrackets line ≠ sect) →
      line ≠ sectionHeader sect →
      pythonKey.isPrefixOf line = false →
      templateDelim.isPrefixOf line = false →
      (idx + j, line) ∈ getDepsAux sect r idx ls
  | [], j, _, _, _, hget, _, _, _, _, _ => by simp at hget
  | l :: rest, 0, line, r, idx, hget, hst, h1, h2, h3, h4 => by
      simp only [List.getElem?_cons_zero, Option.some.injEq] at hget
      subst hget
      simp only [List.take_zero, List.foldl_nil] at hst
      subst hst
      simp only [getDepsAux, Nat.add_zero]
      rw [if_neg h1, if_neg h2, if_neg (by rw [h3]; exact Bool.false_ne_true),
        if_neg (by rw [h4]; exact Bool.false_ne_true)]
      simp
  | l :: rest, j1 + 1, line, r, idx, hget, hst, h1, h2, h3, h4 => by
      simp only [List.getElem?_cons_succ] at hget
      simp only [List.take_succ_cons, List.foldl_cons] at hst
      have hrec : (idx + 1 + j1, line) ∈ getDepsAux sect (nextState sect r l) (idx + 1) rest :=
        mem_getDepsAux_of_state sect rest j1 line (nextState sect r l) (idx + 1)
          hget hst h1 h2 h3 h4
      have harith : idx + (j1 + 1) = idx + 1 + j1 := by omega
      rw [harith]
      simp only [getDepsAux]
      by_cases hb1 : ['['].isPrefixOf l ∧ pyStripBrackets l ≠ sect
      · rw [if_pos hb1]
        rwa [show nextState sect r l = false from by rw [nextState, if_pos hb1]] at hrec
      · rw [if_neg hb1]
        by_cases hb2 : l = sectionHeader sect
        · rw [if_pos hb2]
          rwa [show nextState sect r l = true from by
            rw [nextState, if_neg hb1, if_pos hb2]] at hrec
        · rw [if_neg hb2]
          have hns : nextState sect r l = r := by rw [nextState, if_neg hb1, if_neg hb2]
          rw [hns] at hrec
          by_cases hb3 : pythonKey.isPrefixOf l
          · rw [if_pos hb3]
            exact hrec
          · rw [if_neg hb3]
            by_cases hb4 : templateDelim.isPrefixOf l
            · rw [if_pos hb4]
              exact hrec
            · rw [if_neg hb4]
              cases r with
              | true =>
                  rw [if_pos rfl]
                  exact List.mem_cons_of_mem _ hrec
              | false =>
                  rw [if_neg Bool.false_ne_true]
                  exact hrec

theorem foldl_nextState_no_stop (sect : List Char) :
    ∀ (ls : List (List Char)) (j : Nat),
      (∀ m lm, m < j → ls[m]? = some lm →
        ¬(['['].isPrefixOf lm ∧ pyStripBrackets lm ≠ sect)) →
      List.foldl (nextState sect) true (ls.take j) = true
  | _, 0, _ => by simp
  | [], j1 + 1, _ => by simp
  | l :: rest, j1 + 1, h => by
      simp only [List.take_succ_cons, List.foldl_cons]
      have hl : ¬(['['].isPrefixOf l ∧ pyStripBrackets l ≠ sect) :=
        h 0 l (Nat.succ_pos j1) (by simp)
      have hns : nextState sect true l = true := by
        rw [nextState, if_neg hl]
        by_cases hb : l = sectionHeader sect
        · rw [if_pos hb]
        · rw [if_neg hb]
      rw [hns]
      exact foldl_nextState_no_stop sect rest j1
        (fun m lm hm hget => h (m + 1) lm (by omega) (by simpa using hget))

theorem foldl_nextState_from_header (sect : List Char)
    (hsec : pyStripBrackets (sectionHeader sect) = sect) :
    ∀ (ls : List (List Char)) (i j : Nat) (r : Bool),
      i < j →
      ls[i]? = some (sectionHeader sect) →
      (∀ m lm, i < m → m < j → ls[m]? = some lm →
        ¬(['['].isPrefixOf lm ∧ pyStripBrackets lm ≠ sect)) →
      List.foldl (nextState sect) r (ls.take j) = true
  | [], i, j, r, hij, hi, hmid => by simp at hi
  | l :: rest, 0, j, r, hij, hi, hmid => by
      simp only [List.getElem?_cons_zero, Option.some.injEq] at hi
      subst hi
      match j, hij with
      | j1 + 1, _ =>
          simp only [List.take_succ_cons, List.foldl_cons]
          have hns : nextState sect r (sectionHeader sect) = true := by
            rw [nextState, if_neg (fun hx => hx.2 hsec), if_pos rfl]
          rw [hns]
          exact foldl_nextState_no_stop sect rest j1
            (fun m lm hm hget => hmid (m + 1) lm (Nat.succ_pos m) (by omega)
              (by simpa using hget))
  | l :: rest, i1 + 1, j, r, hij, hi, hmid => by
      simp only [List.getElem?_cons_succ] at hi
      match j, hij with
      | j1 + 1, _ =>
          simp only [List.take_succ_cons, List.foldl_cons]
          exact foldl_nextState_from_header sect hsec rest i1 j1 (nextState sect r l)
            (by omega) hi
            (fun m lm hm1 hm2 hget => hmid (m + 1) lm (by omega) (by omega)
              (by simpa using hget))

/-- Claim C10: recording restarts at every occurrence of the exact
target header line: a candidate line that follows any occurrence of the
header, with no other bracketed header line standing in between, is
returned by section extraction at its index, not only for the first
occurrence. -/
theorem C10_recording_restarts (content sect : List Char) (i j : Nat) (line : List Char)
    (hsec : pyStripBrackets (sectionHeader sect) = sect)
    (hi : (splitlines content)[i]? = some (sectionHeader sect))
    (hij : i < j)
    (hline : (splitlines content)[j]? = some line)
    (hmid : ∀ m lm, i < m → m < j → (splitlines content)[m]? = some lm →
        ¬(['['].isPrefixOf lm ∧ pyStripBrackets lm ≠ sect))
    (h1 : ¬(['['].isPrefixOf line ∧ pyStripBrackets line ≠ sect))
    (h2 : line ≠ sectionHeader sect)
    (h3 : pythonKey.isPrefixOf line = false)
    (h4 : templateDelim.isPrefixOf line = false) :
    (j, line) ∈ get_dependencies content sect := by
  have hst := foldl_nextState_from_header sect hsec (splitlines content) i j false hij hi hmid
  have hm := mem_getDepsAux_of_state sect (splitlines content) j line false 0
    hline hst h1 h2 h3 h4
  simpa using hm

theorem C10_witness :
    (5, "b = \"2\"".toList) ∈
      get_dependencies ("[deps]\na = \"1\"\n[other]\nx\n[deps]\nb = \"2\"".toList)
        ("deps".toList) :=
  C10_recording_restarts ("[deps]\na = \"1\"\n[other]\nx\n[deps]\nb = \"2\"".toList)
    ("deps".toList) 4 5 ("b = \"2\"".toList)
    (by decide) (by decide) (by decide) (by decide)
    (by
      intro m lm hm1 hm2 _
      omega)
    (by decide) (by decide) (by decide) (by decide)

end VersionBumper
